import Mathlib

/-!
Verification of the ToyMotion stop-motion app's core logic: the
project/frame storage layer (two implementations: the
expo-file-system/next based `src/utils/storage.ts` and the legacy
`expo-file-system` based module) and the voice-command
recognition/dispatch hook, together with the camera screen's
capture/delete handlers.

Modelling conventions:
  - file-system locations are plain strings, relative to the app's
    document directory (the `FileSystem.documentDirectory` prefix is
    the empty string in the model);
  - timestamps (`createdAt`, `updatedAt`) are modelled as natural
    numbers (epoch milliseconds); the code stores ISO-8601 strings of
    valid dates, whose lexicographic order agrees with time order;
  - the projects directory is a list of entries in listing order; a
    directory entry carries the parse status of its `metadata.json`
    (absent, unparsable, or a parsed record) and the set of frame
    numbers whose `frame_NNN.jpg` file exists;
  - `new Date()` within one operation is modelled as a single `now`
    parameter supplied to the operation;
  - exceptions that the source catches are modelled by the `Option`
    results the catch produces; operations the source lets throw on
    I/O failure are modelled on the successful path.
-/

/-- ProjectMetadata record from `src/utils/storage.ts` (identical in the
legacy module): id, name, createdAt, updatedAt, frameCount, fps. -/
structure Project where
  id : String
  name : String
  createdAt : Nat
  updatedAt : Nat
  frameCount : Nat
  fps : Nat
deriving DecidableEq, Repr

/-- Content of a `metadata.json` file: either text that `JSON.parse`
rejects, or a parsed `Project` record. -/
inductive MetaContent
| malformed
| good (p : Project)
deriving DecidableEq, Repr

/-- One entry of the projects directory listing: a project directory
(with its metadata parse status and the set of existing frame numbers)
or a stray non-directory file. -/
inductive Entry
| dir (name : String) (meta : Option MetaContent) (frames : List Nat)
| file (name : String)
deriving DecidableEq, Repr

/-- Name of a directory-listing entry. -/
def Entry.name : Entry → String
| Entry.dir n _ _ => n
| Entry.file n => n

/-- True of directory entries (`entry instanceof Directory`). -/
def Entry.isDir : Entry → Bool
| Entry.dir _ _ _ => true
| Entry.file _ => false

/-- State of the persisted store: whether the `projects/` root directory
exists, and its listing. -/
structure FS where
  rootExists : Bool
  entries : List Entry
deriving DecidableEq, Repr

/-- First project directory named `id` in a listing: its metadata parse
status and frame set. -/
def listFindDir : List Entry → String → Option (Option MetaContent × List Nat)
| [], _ => none
| Entry.dir n m frs :: rest, id => if n = id then some (m, frs) else listFindDir rest id
| Entry.file _ :: rest, id => listFindDir rest id

/-- First project directory named `id` in the listing: its metadata
parse status and frame set. -/
def FS.findDir (fs : FS) (id : String) : Option (Option MetaContent × List Nat) :=
  listFindDir fs.entries id

/-- Content of `projects/id/metadata.json`: `none` when the directory or
the file is missing, otherwise the file's parse status. -/
def FS.readMeta (fs : FS) (id : String) : Option MetaContent :=
  match fs.findDir id with
  | some (m, _) => m
  | none => none

/-- Whether a top-level project directory named `id` exists. -/
def FS.dirExists (fs : FS) (id : String) : Bool :=
  (fs.findDir id).isSome

/-- Whether `projects/id/frames/frame_NNN.jpg` exists for frame `n`. -/
def FS.frameExists (fs : FS) (id : String) (n : Nat) : Bool :=
  match fs.findDir id with
  | some (_, frs) => frs.contains n
  | none => false

/-- Effect of a successful directory creation at a project path where
no directory exists yet (the `frames/` subdirectory is implicit in the
model): a fresh empty directory entry is appended. How each module
behaves when the directory already exists is modelled at its own call
site, since the next API's `Directory.create()` throws there while the
legacy `makeDirectoryAsync` with intermediates succeeds silently. -/
def FS.appendDir (fs : FS) (id : String) : FS :=
  { fs with entries := fs.entries ++ [Entry.dir id none []] }

/-- Per-entry effect of writing metadata `p` into the directory named
`id`. -/
def writeMetaEntry (id : String) (p : Project) : Entry → Entry
| Entry.dir n m frs => if n = id then Entry.dir n (some (MetaContent.good p)) frs else Entry.dir n m frs
| Entry.file n => Entry.file n

/-- Per-entry survival test of deleting the directory named `id`. -/
def keepEntry (id : String) : Entry → Bool
| Entry.dir n _ _ => n ≠ id
| Entry.file _ => true

/-- Per-entry effect of copying an image into the slot of frame `n` of
the directory named `id` (overwrite when already present). -/
def addFrameEntry (id : String) (n : Nat) : Entry → Entry
| Entry.dir nm m frs =>
    if nm = id then Entry.dir nm m (if frs.contains n then frs else n :: frs)
    else Entry.dir nm m frs
| Entry.file nm => Entry.file nm

/-- Per-entry effect of deleting the file of frame `n` of the directory
named `id`. -/
def deleteFrameEntry (id : String) (n : Nat) : Entry → Entry
| Entry.dir nm m frs =>
    if nm = id then Entry.dir nm m (frs.filter (fun k => k ≠ n)) else Entry.dir nm m frs
| Entry.file nm => Entry.file nm

/-- Effect of writing `JSON.stringify(p)` to `projects/id/metadata.json`
(updates the entry when the directory exists; a write into a missing
directory throws in both implementations and is modelled as a no-op). -/
def FS.writeMeta (fs : FS) (id : String) (p : Project) : FS :=
  { fs with entries := fs.entries.map (writeMetaEntry id p) }

/-- Effect of deleting the whole directory `projects/id/`. -/
def FS.deleteDir (fs : FS) (id : String) : FS :=
  { fs with entries := fs.entries.filter (keepEntry id) }

/-- Effect of copying an image into the slot of frame `n` of project
`id` (overwrite if already present). -/
def FS.addFrameFile (fs : FS) (id : String) (n : Nat) : FS :=
  { fs with entries := fs.entries.map (addFrameEntry id n) }

/-- Effect of deleting the file of frame `n` of project `id`. -/
def FS.deleteFrameFile (fs : FS) (id : String) (n : Nat) : FS :=
  { fs with entries := fs.entries.map (deleteFrameEntry id n) }

/-- Names of the listing's entries, in listing order. -/
def FS.names (fs : FS) : List String :=
  fs.entries.map Entry.name

/-- PROJECTS_DIR constant; the document-directory prefix is the empty
string in the model, so the root is the relative path `projects/`. -/
def PROJECTS_DIR : String := "projects/"

/-- Left-padding with the zero digit to width 3, the padStart step of
the frame-path computation. -/
def padStart3 (s : String) : String :=
  if s.length ≥ 3 then s else String.mk (List.replicate (3 - s.length) '0') ++ s

/-- Decimal rendering of a frame number zero-padded to width 3, exactly
as both implementations compute it. -/
def zeroPad3 (n : Nat) : String :=
  padStart3 (Nat.repr n)


/-- Stable insertion of a project into a list already sorted by
descending updatedAt; an element inserted from the left goes before the
first element whose updatedAt is not greater, which matches the stable
JS sort with comparator b.updatedAt - a.updatedAt. -/
def insertDesc (p : Project) : List Project → List Project
| [] => [p]
| q :: rest => if q.updatedAt ≤ p.updatedAt then p :: q :: rest else q :: insertDesc p rest

/-- Stable sort by descending updatedAt, the model of the
`projects.sort` call shared verbatim by both implementations. -/
def sortByUpdatedDesc : List Project → List Project
| [] => []
| p :: rest => insertDesc p (sortByUpdatedDesc rest)

namespace StorageNext

/-- ensureProjectsDir from `src/utils/storage.ts`: create the root
directory if it does not exist. -/
def ensureProjectsDir (fs : FS) : FS :=
  if fs.rootExists then fs else { fs with rootExists := true }

/-- getProjectDir from `src/utils/storage.ts`. -/
def getProjectDir (projectId : String) : String :=
  PROJECTS_DIR ++ projectId ++ "/"

/-- getFramesDir from `src/utils/storage.ts`. -/
def getFramesDir (projectId : String) : String :=
  PROJECTS_DIR ++ projectId ++ "/frames/"

/-- createProject from `src/utils/storage.ts`. The identifier produced
by v4Style and the current time are supplied as parameters (`id`,
`now`). `projectDir.create()` is called with no options and throws when
`projects/<id>` already exists, so the result is optional: `none`
models the propagated exception, with nothing written. On the fresh
path the project and frames directories are created, the initial
metadata written and returned. (A stray non-directory file at the
project path would make both modules throw alike; both models treat
only directory collisions, and the theorems exclude that corner
through their freshness hypotheses.) -/
def createProject (fs : FS) (name : String) (id : String) (now : Nat) :
    Option (FS × Project) :=
  let fs1 := ensureProjectsDir fs
  if fs1.dirExists id then none
  else
    let fs2 := fs1.appendDir id
    let metadata : Project := ⟨id, name, now, now, 0, 12⟩
    let fs3 := fs2.writeMeta id metadata
    some (fs3, metadata)

/-- loadProject from `src/utils/storage.ts`: checks that the metadata
file exists (returning null otherwise), reads and parses it; a parse
exception is caught and becomes null. -/
def loadProject (fs : FS) (projectId : String) : Option Project :=
  if (fs.readMeta projectId).isSome then
    match fs.readMeta projectId with
    | some MetaContent.malformed => none
    | some (MetaContent.good p) => some p
    | none => none
  else none

/-- saveProjectMetadata from `src/utils/storage.ts`: overwrites
`projects/id/metadata.json` in place. -/
def saveProjectMetadata (fs : FS) (metadata : Project) : FS :=
  fs.writeMeta metadata.id metadata

/-- Collection loop of listProjects in `src/utils/storage.ts`: walk the
listing, keep only directory entries, load each and keep the records
that load. -/
def collectProjects (fs : FS) : List Entry → List Project
| [] => []
| e :: rest =>
    match e with
    | Entry.dir n _ _ =>
        match loadProject fs n with
        | some p => p :: collectProjects fs rest
        | none => collectProjects fs rest
    | Entry.file _ => collectProjects fs rest

/-- listProjects from `src/utils/storage.ts`: ensure the root, collect
the loadable directory records, sort by descending updatedAt. -/
def listProjects (fs : FS) : FS × List Project :=
  let fs1 := ensureProjectsDir fs
  (fs1, sortByUpdatedDesc (collectProjects fs1 fs1.entries))

/-- deleteProject from `src/utils/storage.ts`: delete the project
directory if it exists. -/
def deleteProject (fs : FS) (projectId : String) : FS :=
  if fs.dirExists projectId then fs.deleteDir projectId else fs

/-- getFramePath from `src/utils/storage.ts`: pure path computation,
no file-system argument. -/
def getFramePath (projectId : String) (frameNumber : Nat) : String :=
  PROJECTS_DIR ++ projectId ++ "/frames/frame_" ++ padStart3 (Nat.repr frameNumber) ++ ".jpg"

/-- addFrame from `src/utils/storage.ts`: copy the source image into
the frame slot and return the destination location (`sourceUri` is the
copied image; its content does not enter the model). -/
def addFrame (fs : FS) (projectId : String) (sourceUri : String) (frameNumber : Nat) : FS × String :=
  let padded := padStart3 (Nat.repr frameNumber)
  let dest := PROJECTS_DIR ++ projectId ++ "/frames/frame_" ++ padded ++ ".jpg"
  (fs.addFrameFile projectId frameNumber, dest)

/-- deleteLastFrame from `src/utils/storage.ts`: delete the frame file
if it exists. -/
def deleteLastFrame (fs : FS) (projectId : String) (frameNumber : Nat) : FS :=
  if fs.frameExists projectId frameNumber then fs.deleteFrameFile projectId frameNumber else fs

/-- getFrameUri from `src/utils/storage.ts`: existence-checked variant
of the frame location. -/
def getFrameUri (fs : FS) (projectId : String) (frameNumber : Nat) : Option String :=
  if fs.frameExists projectId frameNumber then some (getFramePath projectId frameNumber) else none

/-- getAllFrameUris from `src/utils/storage.ts`: unchecked locations of
frames 1..frameCount in order. -/
def getAllFrameUris (projectId : String) (frameCount : Nat) : List String :=
  (List.range frameCount).map (fun i => getFramePath projectId (i + 1))

end StorageNext

namespace StorageLegacy

/-- ensureProjectsDir from the legacy module: getInfoAsync then
makeDirectoryAsync when absent. -/
def ensureProjectsDir (fs : FS) : FS :=
  if fs.rootExists then fs else { fs with rootExists := true }

/-- getProjectDir from the legacy module. -/
def getProjectDir (projectId : String) : String :=
  PROJECTS_DIR ++ projectId ++ "/"

/-- getFramesDir from the legacy module. -/
def getFramesDir (projectId : String) : String :=
  PROJECTS_DIR ++ projectId ++ "/frames/"

/-- createProject from the legacy module: makeDirectoryAsync of the
frames directory with intermediates true (which creates the project
directory as well) succeeds whether or not the directory already
exists, leaving an existing one as it is; the metadata is then written,
overwriting any record already there. The result is wrapped in the same
optional domain as the next module for comparison; this path never
throws, so the absent value is unreachable. -/
def createProject (fs : FS) (name : String) (id : String) (now : Nat) :
    Option (FS × Project) :=
  let fs1 := ensureProjectsDir fs
  let fs2 := if fs1.dirExists id then fs1 else fs1.appendDir id
  let metadata : Project := ⟨id, name, now, now, 0, 12⟩
  let fs3 := fs2.writeMeta id metadata
  some (fs3, metadata)

/-- loadProject from the legacy module: readAsStringAsync throws when
the file is missing and JSON.parse throws on malformed content; both
exceptions are caught and become null. -/
def loadProject (fs : FS) (projectId : String) : Option Project :=
  match fs.readMeta projectId with
  | none => none
  | some MetaContent.malformed => none
  | some (MetaContent.good p) => some p

/-- saveProjectMetadata from the legacy module. -/
def saveProjectMetadata (fs : FS) (metadata : Project) : FS :=
  fs.writeMeta metadata.id metadata

/-- Collection loop of listProjects in the legacy module: walk every
name returned by readDirectoryAsync (directories and stray files
alike), load each and keep the records that load. -/
def collectProjects (fs : FS) : List Entry → List Project
| [] => []
| e :: rest =>
    match loadProject fs e.name with
    | some p => p :: collectProjects fs rest
    | none => collectProjects fs rest

/-- listProjects from the legacy module. -/
def listProjects (fs : FS) : FS × List Project :=
  let fs1 := ensureProjectsDir fs
  (fs1, sortByUpdatedDesc (collectProjects fs1 fs1.entries))

/-- deleteProject from the legacy module: deleteAsync with the
idempotent flag, an unconditional delete of the directory. -/
def deleteProject (fs : FS) (projectId : String) : FS :=
  fs.deleteDir projectId

/-- getFramePath from the legacy module. -/
def getFramePath (projectId : String) (frameNumber : Nat) : String :=
  PROJECTS_DIR ++ projectId ++ "/frames/frame_" ++ padStart3 (Nat.repr frameNumber) ++ ".jpg"

/-- addFrame from the legacy module: copyAsync into getFramePath and
return that path. -/
def addFrame (fs : FS) (projectId : String) (sourceUri : String) (frameNumber : Nat) : FS × String :=
  let destPath := getFramePath projectId frameNumber
  (fs.addFrameFile projectId frameNumber, destPath)

/-- deleteLastFrame from the legacy module: deleteAsync of the frame
path with the idempotent flag. -/
def deleteLastFrame (fs : FS) (projectId : String) (frameNumber : Nat) : FS :=
  fs.deleteFrameFile projectId frameNumber

/-- getFrameUri from the legacy module: getInfoAsync existence check. -/
def getFrameUri (fs : FS) (projectId : String) (frameNumber : Nat) : Option String :=
  if fs.frameExists projectId frameNumber then some (getFramePath projectId frameNumber) else none

/-- getAllFrameUris from the legacy module. -/
def getAllFrameUris (projectId : String) (frameCount : Nat) : List String :=
  (List.range frameCount).map (fun i => getFramePath projectId (i + 1))

end StorageLegacy

/-- VoiceCommand type from `useVoiceCommands`: the three dispatchable
commands. -/
inductive VoiceCommand
| capture
| delete
| play
deriving DecidableEq, Repr

/-- One row of the phrase-to-command table. -/
structure CommandEntry where
  phrases : List String
  command : VoiceCommand
deriving DecidableEq, Repr

/-- COMMAND_MAP from `useVoiceCommands`, in source order: capture,
delete, play. -/
def COMMAND_MAP : List CommandEntry :=
  [ ⟨["take photo", "capture", "snap"], VoiceCommand.capture⟩,
    ⟨["delete photo", "delete frame", "undo"], VoiceCommand.delete⟩,
    ⟨["play", "preview"], VoiceCommand.play⟩ ]

/-- DEBOUNCE_MS constant from `useVoiceCommands`. -/
def DEBOUNCE_MS : Nat := 1500

/-- JS String.prototype.toLowerCase, modelled on the ASCII range (the
trigger phrases are all ASCII, so containment is unaffected): map the
ASCII lower-casing over the characters. -/
def jsToLower (s : String) : String :=
  String.mk (s.toList.map Char.toLower)

/-- Whitespace test of JS String.prototype.trim for the characters a
transcript can contain. -/
def isWsChar (c : Char) : Bool :=
  c = ' ' || c = '\t' || c = '\n' || c = '\r'

/-- JS String.prototype.trim: drop whitespace from both ends. -/
def jsTrim (s : String) : String :=
  String.mk (((s.toList.dropWhile isWsChar).reverse.dropWhile isWsChar).reverse)

/-- Whether `sub` is an initial segment of `s` (on character lists). -/
def startsWithList : List Char → List Char → Bool
| _, [] => true
| [], _ :: _ => false
| a :: as, b :: bs => a = b && startsWithList as bs

/-- Whether `sub` occurs contiguously somewhere in `s`. -/
def containsSub : List Char → List Char → Bool
| [], sub => sub.isEmpty
| a :: rest, sub => startsWithList (a :: rest) sub || containsSub rest sub

/-- JS String.prototype.includes: the second string occurs contiguously
inside the first. -/
def strIncludes (s sub : String) : Bool :=
  containsSub s.toList sub.toList

/-- Inner loop of matchCommand over one table row: whether the
normalised transcript contains any of the row's phrases. -/
def entryAny (lower : String) (e : CommandEntry) : Bool :=
  e.phrases.any (fun ph => strIncludes lower ph)

/-- Outer loop of matchCommand: scan the table rows in order and return
the command of the first row one of whose phrases the (already
normalised) transcript contains. -/
def matchEntries (lower : String) : List CommandEntry → Option VoiceCommand
| [] => none
| e :: rest =>
    if entryAny lower e then some e.command
    else matchEntries lower rest

/-- matchCommand from `useVoiceCommands`: lower-case and trim the
transcript, then scan COMMAND_MAP. -/
def matchCommand (transcript : String) : Option VoiceCommand :=
  matchEntries (jsTrim (jsToLower transcript)) COMMAND_MAP

/-- Mutable refs of the dispatcher that survive across dispatches: the
time of the last executed command (lastCommandTime, initially 0) and
its identity (lastCommandRef, initially null). -/
structure DispatchState where
  lastCommandTime : Nat
  lastCommand : Option VoiceCommand
deriving DecidableEq, Repr

/-- executeCommand from `useVoiceCommands`. `callbacks` is the value of
the three handler refs as read at dispatch time (the refs are rewritten
on every render, so this is the current callback, not a captured one);
the result's second component is the invoked callback, or none when the
command is debounced. JS computes now - lastCommandTime on numbers;
with a monotone clock the difference is the Nat difference, and a
clock step backwards makes both the JS test and the truncated Nat test
true, so the model agrees with the source on all inputs. -/
def executeCommand {α : Type} (st : DispatchState) (callbacks : VoiceCommand → α)
    (cmd : VoiceCommand) (now : Nat) : DispatchState × Option α :=
  if now - st.lastCommandTime < DEBOUNCE_MS ∧ st.lastCommand = some cmd then
    (st, none)
  else
    (⟨now, some cmd⟩, some (callbacks cmd))

/-- Error codes of the speech-recognition error event that the handler
distinguishes; every other code behaves like `other`. -/
inductive SpeechError
| noSpeech
| notAllowed
| serviceNotAllowed
| other
deriving DecidableEq, Repr

/-- React state and refs of `useVoiceCommands` that drive the
listening state machine. -/
structure HookState where
  wantsListening : Bool
  isListening : Bool
  isAvailable : Bool
deriving DecidableEq, Repr

/-- Result of one event-handler invocation: the successor state,
whether startRecognition was called, and whether the microphone
permission prompt was issued. -/
structure StepResult where
  state : HookState
  started : Bool
  prompted : Bool
deriving DecidableEq, Repr

/-- The recognition-session end handler from `useVoiceCommands`:
restart while the intent flag is set, otherwise record not listening. -/
def onEnd (st : HookState) : StepResult :=
  if st.wantsListening then ⟨st, true, false⟩
  else ⟨{ st with isListening := false }, false, false⟩

/-- The recognition error handler from `useVoiceCommands`: restart on a
no-speech timeout while the intent flag is set; on a permission error
mark the feature unavailable and clear the intent flag; ignore
anything else. -/
def onError (st : HookState) (e : SpeechError) : StepResult :=
  if st.wantsListening ∧ e = SpeechError.noSpeech then ⟨st, true, false⟩
  else if e = SpeechError.notAllowed ∨ e = SpeechError.serviceNotAllowed then
    ⟨{ st with isAvailable := false, wantsListening := false, isListening := false }, false, false⟩
  else ⟨st, false, false⟩

/-- toggleListening from `useVoiceCommands`; `granted` is the answer
the environment gives to the permission request. A stop clears the
intent flag; a start first issues the one-time permission prompt and
either arms the session or marks the feature unavailable. -/
def toggleListening (st : HookState) (granted : Bool) : StepResult :=
  if st.wantsListening then
    ⟨{ st with wantsListening := false, isListening := false }, false, false⟩
  else if granted then
    ⟨{ st with wantsListening := true, isListening := true }, true, true⟩
  else
    ⟨{ st with isAvailable := false }, false, true⟩

/-- Events the hook can receive during one mounted session. -/
inductive HookEvent
| endEv
| errorEv (e : SpeechError)
| toggleEv (granted : Bool)
deriving DecidableEq, Repr

/-- One step of the dispatcher. The toggle is reachable only through
the microphone button, which the camera screen renders only while
isAvailable is set, so a toggle arriving while the feature is
unavailable does nothing. -/
def hookStep (st : HookState) (ev : HookEvent) : StepResult :=
  match ev with
  | HookEvent.endEv => onEnd st
  | HookEvent.errorEv e => onError st e
  | HookEvent.toggleEv g => if st.isAvailable then toggleListening st g else ⟨st, false, false⟩

/-- Accumulated outcome of a sequence of events: final state, whether
any step started a recognition session, whether any step issued the
permission prompt. -/
structure RunResult where
  state : HookState
  anyStarted : Bool
  anyPrompted : Bool
deriving DecidableEq, Repr

/-- Fold of `hookStep` over an event sequence. -/
def runEvents (st : HookState) : List HookEvent → RunResult
| [] => ⟨st, false, false⟩
| ev :: rest =>
    let r := hookStep st ev
    let rr := runEvents r.state rest
    ⟨rr.state, r.started || rr.anyStarted, r.prompted || rr.anyPrompted⟩

/-- React state of the camera screen that the capture and delete
handlers read and write: the loaded project, the capturing latch, the
camera-ready flag, whether the camera ref is attached, and the onion
skin uri. -/
structure CameraScreen where
  project : Option Project
  capturing : Bool
  cameraReady : Bool
  camRef : Bool
  lastFrameUri : Option String
deriving DecidableEq, Repr

/-- handleCapture from the camera screen. `photo` is the result of
takePictureAsync (none when the camera returns nothing) and `now` the
current time; the guard clause, the photo check, the 200-frame cap, the
addFrame and metadata write all follow the source order. -/
def handleCapture (fs : FS) (s : CameraScreen) (photo : Option String) (now : Nat) :
    FS × CameraScreen :=
  if !s.camRef || s.project.isNone || s.capturing || !s.cameraReady then (fs, s)
  else
    match s.project, photo with
    | some p, some photoUri =>
        let newFrameNum := p.frameCount + 1
        if newFrameNum > 200 then (fs, { s with capturing := false })
        else
          let res := StorageNext.addFrame fs p.id photoUri newFrameNum
          let updated : Project := { p with frameCount := newFrameNum, updatedAt := now }
          let fs2 := StorageNext.saveProjectMetadata res.1 updated
          (fs2, { s with project := some updated, lastFrameUri := some res.2, capturing := false })
    | some _, none => (fs, { s with capturing := false })
    | none, _ => (fs, s)

/-- handleDeleteLast from the camera screen: a no-op without a project
or at frameCount zero, otherwise delete the tail frame file, write the
decremented metadata and refresh the onion skin uri. -/
def handleDeleteLast (fs : FS) (s : CameraScreen) (now : Nat) : FS × CameraScreen :=
  match s.project with
  | none => (fs, s)
  | some p =>
      if p.frameCount = 0 then (fs, s)
      else
        let fs1 := StorageNext.deleteLastFrame fs p.id p.frameCount
        let updated : Project := { p with frameCount := p.frameCount - 1, updatedAt := now }
        let fs2 := StorageNext.saveProjectMetadata fs1 updated
        let uri :=
          if updated.frameCount > 0 then
            some (StorageNext.getFramePath updated.id updated.frameCount)
          else none
        (fs2, { s with project := some updated, lastFrameUri := uri })

/-- Duplicate-free directory listing: real file systems never hold two
entries of the same name under one directory. -/
def NodupNames (fs : FS) : Prop :=
  (fs.entries.map Entry.name).Nodup

/-- Output lists sorted by weakly descending updatedAt. -/
def updatedDesc (l : List Project) : Prop :=
  List.Pairwise (fun a b => b.updatedAt ≤ a.updatedAt) l

/-- Output lists sorted by strictly descending updatedAt. -/
def strictUpdatedDesc (l : List Project) : Prop :=
  List.Pairwise (fun a b => b.updatedAt < a.updatedAt) l

theorem listFindDir_eq_none (l : List Entry) (id : String)
    (h : ∀ e ∈ l, Entry.name e ≠ id) : listFindDir l id = none := by
  induction l with
  | nil => rfl
  | cons e rest ih =>
      cases e with
      | dir n m frs =>
          have hn : n ≠ id := h (Entry.dir n m frs) (List.mem_cons_self _ _)
          simp [listFindDir, hn]
          exact ih (fun e he => h e (List.mem_cons_of_mem _ he))
      | file n =>
          simp [listFindDir]
          exact ih (fun e he => h e (List.mem_cons_of_mem _ he))

theorem listFindDir_append_of_none (l1 l2 : List Entry) (id : String)
    (h : listFindDir l1 id = none) :
    listFindDir (l1 ++ l2) id = listFindDir l2 id := by
  induction l1 with
  | nil => rfl
  | cons e rest ih =>
      cases e with
      | dir n m frs =>
          by_cases hn : n = id
          · simp [listFindDir, hn] at h
          · simp [listFindDir, hn] at h ⊢
            exact ih h
      | file n =>
          simp [listFindDir] at h ⊢
          exact ih h

theorem listFindDir_map_writeMeta (l : List Entry) (id : String) (p : Project) :
    listFindDir (l.map (writeMetaEntry id p)) id =
      (listFindDir l id).map (fun x => (some (MetaContent.good p), x.2)) := by
  induction l with
  | nil => rfl
  | cons e rest ih =>
      cases e with
      | dir n m frs =>
          by_cases hn : n = id
          · simp [writeMetaEntry, listFindDir, hn]
          · simp [writeMetaEntry, listFindDir, hn, ih]
      | file n =>
          simp [writeMetaEntry, listFindDir, ih]

theorem listFindDir_map_writeMeta_snd (l : List Entry) (idw id : String) (p : Project) :
    (listFindDir (l.map (writeMetaEntry idw p)) id).map Prod.snd =
      (listFindDir l id).map Prod.snd := by
  induction l with
  | nil => rfl
  | cons e rest ih =>
      cases e with
      | dir n m frs =>
          by_cases hw : n = idw
          · by_cases hn : n = id
            · have hww : idw = id := hw.symm.trans hn
              simp [writeMetaEntry, listFindDir, hw, hn, hww]
            · have hww : ¬ idw = id := fun h => hn (hw.trans h)
              simp [writeMetaEntry, listFindDir, hw, hn, hww, ih]
          · by_cases hn : n = id
            · have hww : ¬ id = idw := fun h => hw (hn.trans h)
              simp [writeMetaEntry, listFindDir, hw, hn, hww]
            · simp [writeMetaEntry, listFindDir, hw, hn, ih]
      | file n =>
          simp [writeMetaEntry, listFindDir, ih]

theorem listFindDir_map_deleteFrame (l : List Entry) (id : String) (n : Nat) :
    listFindDir (l.map (deleteFrameEntry id n)) id =
      (listFindDir l id).map (fun x => (x.1, x.2.filter (fun k => k ≠ n))) := by
  induction l with
  | nil => rfl
  | cons e rest ih =>
      cases e with
      | dir nm m frs =>
          by_cases hn : nm = id
          · simp [deleteFrameEntry, listFindDir, hn]
          · simp [deleteFrameEntry, listFindDir, hn, ih]
      | file nm =>
          simp [deleteFrameEntry, listFindDir, ih]

theorem filter_ne_contains_self (frs : List Nat) (n : Nat) :
    (frs.filter (fun k => k ≠ n)).contains n = false := by
  induction frs with
  | nil => rfl
  | cons a rest ih =>
      by_cases ha : a = n
      · simp [List.filter, ha, ih]
      · simp [List.filter, ha, Ne.symm ha, ih]

theorem filter_ne_of_not_contains (frs : List Nat) (n : Nat)
    (h : frs.contains n = false) : frs.filter (fun k => k ≠ n) = frs := by
  induction frs with
  | nil => rfl
  | cons a rest ih =>
      simp [List.contains_cons] at h
      simp [List.filter, Ne.symm h.1]
      exact fun x hx e => h.2 (e ▸ hx)

theorem map_deleteFrameEntry_of_none (l : List Entry) (id : String) (n : Nat)
    (h : listFindDir l id = none) : l.map (deleteFrameEntry id n) = l := by
  induction l with
  | nil => rfl
  | cons e rest ih =>
      cases e with
      | dir nm m frs =>
          by_cases hn : nm = id
          · simp [listFindDir, hn] at h
          · simp [listFindDir, hn] at h
            simp [deleteFrameEntry, hn, ih h]
      | file nm =>
          simp [listFindDir] at h
          simp [deleteFrameEntry, ih h]

theorem filter_keepEntry_of_none (l : List Entry) (id : String)
    (h : listFindDir l id = none) : l.filter (keepEntry id) = l := by
  induction l with
  | nil => rfl
  | cons e rest ih =>
      cases e with
      | dir nm m frs =>
          by_cases hn : nm = id
          · simp [listFindDir, hn] at h
          · simp [listFindDir, hn] at h
            simp [List.filter, keepEntry, hn, ih h]
      | file nm =>
          simp [listFindDir] at h
          simp [List.filter, keepEntry, ih h]

theorem mem_insertDesc (p a : Project) (l : List Project) :
    a ∈ insertDesc p l ↔ a = p ∨ a ∈ l := by
  induction l with
  | nil => simp [insertDesc]
  | cons q rest ih =>
      by_cases h : q.updatedAt ≤ p.updatedAt
      · simp [insertDesc, h]
      · simp [insertDesc, h, ih]
        tauto

theorem mem_sortByUpdatedDesc (a : Project) (l : List Project) :
    a ∈ sortByUpdatedDesc l ↔ a ∈ l := by
  induction l with
  | nil => simp [sortByUpdatedDesc]
  | cons p rest ih => simp [sortByUpdatedDesc, mem_insertDesc, ih]

theorem updatedDesc_insertDesc (p : Project) (l : List Project)
    (h : updatedDesc l) : updatedDesc (insertDesc p l) := by
  simp only [updatedDesc] at h ⊢
  induction l with
  | nil => simp [insertDesc]
  | cons q rest ih =>
      rcases List.pairwise_cons.mp h with ⟨hq, hrest⟩
      by_cases hle : q.updatedAt ≤ p.updatedAt
      · simp only [insertDesc, if_pos hle]
        refine List.pairwise_cons.mpr ⟨?_, h⟩
        intro b hb
        rcases List.mem_cons.mp hb with rfl | hb'
        · exact hle
        · exact le_trans (hq b hb') hle
      · simp only [insertDesc, if_neg hle]
        refine List.pairwise_cons.mpr ⟨?_, ih hrest⟩
        intro b hb
        rcases (mem_insertDesc p b rest).mp hb with rfl | hb'
        · exact Nat.le_of_lt (Nat.lt_of_not_le hle)
        · exact hq b hb'

theorem updatedDesc_sort (l : List Project) : updatedDesc (sortByUpdatedDesc l) := by
  induction l with
  | nil => simp [sortByUpdatedDesc, updatedDesc]
  | cons p rest ih => exact updatedDesc_insertDesc p _ ih

theorem head_eq_of_strict_max (l : List Project) (p : Project)
    (hs : updatedDesc l) (hp : p ∈ l)
    (hmax : ∀ q ∈ l, q ≠ p → q.updatedAt < p.updatedAt) :
    l.head? = some p := by
  cases l with
  | nil => cases hp
  | cons h t =>
      by_cases he : h = p
      · simp [he]
      · exfalso
        have hlt : h.updatedAt < p.updatedAt := hmax h (List.mem_cons_self _ _) he
        have hpt : p ∈ t := by
          rcases List.mem_cons.mp hp with rfl | h'
          · exact absurd rfl he
          · exact h'
        have hle : p.updatedAt ≤ h.updatedAt :=
          (List.pairwise_cons.mp hs).1 p hpt
        exact absurd hlt (Nat.not_lt.mpr hle)

theorem findDir_mem (l : List Entry) (id : String) (m : Option MetaContent) (frs : List Nat)
    (h : listFindDir l id = some (m, frs)) : Entry.dir id m frs ∈ l := by
  induction l with
  | nil => cases h
  | cons e rest ih =>
      cases e with
      | dir n m' frs' =>
          by_cases hn : n = id
          · subst hn
            simp [listFindDir] at h
            rcases h with ⟨rfl, rfl⟩
            exact List.mem_cons_self _ _
          · simp [listFindDir, hn] at h
            exact List.mem_cons_of_mem _ (ih h)
      | file n =>
          simp [listFindDir] at h
          exact List.mem_cons_of_mem _ (ih h)

theorem mem_findDir_of_nodup (l : List Entry) (id : String) (m : Option MetaContent)
    (frs : List Nat) (hnod : (l.map Entry.name).Nodup)
    (h : Entry.dir id m frs ∈ l) : listFindDir l id = some (m, frs) := by
  induction l with
  | nil => cases h
  | cons e rest ih =>
      have hcons := List.nodup_cons.mp (by simpa only [List.map_cons] using hnod)
      rcases List.mem_cons.mp h with rfl | hmem
      · simp [listFindDir]
      · cases e with
        | dir n m' frs' =>
            by_cases hn : n = id
            · exfalso
              refine hcons.1 ?_
              rw [show Entry.name (Entry.dir n m' frs') = n from rfl, hn]
              exact List.mem_map.mpr ⟨Entry.dir id m frs, hmem, rfl⟩
            · simp [listFindDir, hn]
              exact ih hcons.2 hmem
        | file n =>
            simp [listFindDir]
            exact ih hcons.2 hmem

theorem ensure_entries (fs : FS) :
    (StorageNext.ensureProjectsDir fs).entries = fs.entries := by
  by_cases h : fs.rootExists <;> simp [StorageNext.ensureProjectsDir, h]

theorem loadProject_congr_entries (fs fs' : FS) (h : fs.entries = fs'.entries)
    (id : String) : StorageNext.loadProject fs id = StorageNext.loadProject fs' id := by
  simp [StorageNext.loadProject, FS.readMeta, FS.findDir, h]

theorem loadProject_eq_some_iff (fs : FS) (id : String) (p : Project) :
    StorageNext.loadProject fs id = some p ↔
      fs.readMeta id = some (MetaContent.good p) := by
  cases hm : fs.readMeta id with
  | none => simp [StorageNext.loadProject, hm]
  | some mc =>
      cases mc with
      | malformed => simp [StorageNext.loadProject, hm]
      | good q => simp [StorageNext.loadProject, hm]

theorem mem_collectNext (fs : FS) (l : List Entry) (p : Project) :
    p ∈ StorageNext.collectProjects fs l ↔
      ∃ e, e ∈ l ∧ e.isDir = true ∧ StorageNext.loadProject fs e.name = some p := by
  induction l with
  | nil => simp [StorageNext.collectProjects]
  | cons e0 rest ih =>
      cases e0 with
      | dir n m frs =>
          cases hl : StorageNext.loadProject fs n with
          | none =>
              rw [StorageNext.collectProjects, hl, ih]
              constructor
              · rintro ⟨e, hmem, hd, hload⟩
                exact ⟨e, List.mem_cons_of_mem _ hmem, hd, hload⟩
              · rintro ⟨e, hmem, hd, hload⟩
                rcases List.mem_cons.mp hmem with rfl | hmem'
                · rw [Entry.name] at hload
                  rw [hl] at hload
                  cases hload
                · exact ⟨e, hmem', hd, hload⟩
          | some q =>
              rw [StorageNext.collectProjects, hl]
              simp only [List.mem_cons]
              constructor
              · rintro (rfl | hmem)
                · exact ⟨Entry.dir n m frs, Or.inl rfl, rfl, by rw [Entry.name, hl]⟩
                · rcases (ih).mp hmem with ⟨e, hm, hd, hload⟩
                  exact ⟨e, Or.inr hm, hd, hload⟩
              · rintro ⟨e, hmem, hd, hload⟩
                rcases hmem with rfl | hmem'
                · rw [Entry.name, hl] at hload
                  exact Or.inl (Option.some.inj hload).symm
                · exact Or.inr ((ih).mpr ⟨e, hmem', hd, hload⟩)
      | file n =>
          rw [StorageNext.collectProjects, ih]
          constructor
          · rintro ⟨e, hmem, hd, hload⟩
            exact ⟨e, List.mem_cons_of_mem _ hmem, hd, hload⟩
          · rintro ⟨e, hmem, hd, hload⟩
            rcases List.mem_cons.mp hmem with rfl | hmem'
            · cases hd
            · exact ⟨e, hmem', hd, hload⟩

theorem matchEntries_eq_some_iff (lower : String) (L : List CommandEntry) (c : VoiceCommand) :
    matchEntries lower L = some c ↔
      ∃ pre e post, L = pre ++ e :: post ∧
        (∀ x ∈ pre, entryAny lower x = false) ∧
        entryAny lower e = true ∧ e.command = c := by
  induction L with
  | nil =>
      simp [matchEntries]
  | cons e0 rest ih =>
      by_cases h : entryAny lower e0 = true
      · rw [matchEntries, if_pos h]
        constructor
        · intro hc
          exact ⟨[], e0, rest, rfl, by simp, h, Option.some.inj hc⟩
        · rintro ⟨pre, e, post, hL, hpre, he, hc⟩
          cases pre with
          | nil =>
              simp at hL
              rcases hL with ⟨rfl, rfl⟩
              rw [hc]
          | cons x xs =>
              simp at hL
              rcases hL with ⟨rfl, hL'⟩
              have hx := hpre e0 (List.mem_cons_self _ _)
              rw [hx] at h
              cases h
      · have h' : entryAny lower e0 = false := by
          cases hb : entryAny lower e0
          · rfl
          · exact absurd hb h
        rw [matchEntries, if_neg h, ih]
        constructor
        · rintro ⟨pre, e, post, hL, hpre, he, hc⟩
          refine ⟨e0 :: pre, e, post, by rw [hL]; rfl, ?_, he, hc⟩
          intro x hx
          rcases List.mem_cons.mp hx with rfl | hx'
          · exact h'
          · exact hpre x hx'
        · rintro ⟨pre, e, post, hL, hpre, he, hc⟩
          cases pre with
          | nil =>
              simp at hL
              rcases hL with ⟨rfl, rfl⟩
              rw [he] at h'
              cases h'
          | cons x xs =>
              simp at hL
              rcases hL with ⟨rfl, hL'⟩
              exact ⟨xs, e, post, hL', fun y hy => hpre y (List.mem_cons_of_mem _ hy), he, hc⟩

theorem matchEntries_eq_none_iff (lower : String) (L : List CommandEntry) :
    matchEntries lower L = none ↔ ∀ e ∈ L, entryAny lower e = false := by
  induction L with
  | nil => simp [matchEntries]
  | cons e0 rest ih =>
      by_cases h : entryAny lower e0 = true
      · rw [matchEntries, if_pos h]
        simp [h]
      · have h' : entryAny lower e0 = false := by
          cases hb : entryAny lower e0
          · rfl
          · exact absurd hb h
        rw [matchEntries, if_neg h, ih]
        simp [h']

theorem hookStep_no_restart (st : HookState) (ev : HookEvent)
    (hw : st.wantsListening = false)
    (hev : ev = HookEvent.endEv ∨ ∃ e, ev = HookEvent.errorEv e) :
    (hookStep st ev).started = false ∧ (hookStep st ev).state.wantsListening = false := by
  rcases hev with rfl | ⟨e, rfl⟩
  · simp [hookStep, onEnd, hw]
  · cases e <;> simp [hookStep, onError, hw]

theorem runEvents_no_restart (st : HookState) (evs : List HookEvent)
    (hw : st.wantsListening = false)
    (hevs : ∀ ev ∈ evs, ev = HookEvent.endEv ∨ ∃ e, ev = HookEvent.errorEv e) :
    (runEvents st evs).anyStarted = false ∧
      (runEvents st evs).state.wantsListening = false := by
  induction evs generalizing st with
  | nil => exact ⟨rfl, hw⟩
  | cons ev rest ih =>
      have hstep := hookStep_no_restart st ev hw (hevs ev (List.mem_cons_self _ _))
      have hrest := ih (hookStep st ev).state hstep.2
        (fun e he => hevs e (List.mem_cons_of_mem _ he))
      simp [runEvents, hstep.1, hrest.1, hrest.2]

theorem hookStep_unavailable (st : HookState) (ev : HookEvent)
    (ha : st.isAvailable = false) (hw : st.wantsListening = false) :
    (hookStep st ev).started = false ∧ (hookStep st ev).prompted = false ∧
      (hookStep st ev).state.isAvailable = false ∧
      (hookStep st ev).state.wantsListening = false := by
  cases ev with
  | endEv => simp [hookStep, onEnd, hw, ha]
  | errorEv e => cases e <;> simp [hookStep, onError, hw, ha]
  | toggleEv g => simp [hookStep, ha, hw]

theorem runEvents_unavailable (st : HookState) (evs : List HookEvent)
    (ha : st.isAvailable = false) (hw : st.wantsListening = false) :
    (runEvents st evs).anyStarted = false ∧ (runEvents st evs).anyPrompted = false ∧
      (runEvents st evs).state.isAvailable = false ∧
      (runEvents st evs).state.wantsListening = false := by
  induction evs generalizing st with
  | nil => exact ⟨rfl, rfl, ha, hw⟩
  | cons ev rest ih =>
      have hstep := hookStep_unavailable st ev ha hw
      have hrest := ih (hookStep st ev).state hstep.2.2.1 hstep.2.2.2
      simp [runEvents, hstep.1, hstep.2.1, hrest.1, hrest.2.1, hrest.2.2.1, hrest.2.2.2]

theorem frameExists_writeMeta (fs : FS) (idw id : String) (p : Project) (n : Nat) :
    (fs.writeMeta idw p).frameExists id n = fs.frameExists id n := by
  have h := listFindDir_map_writeMeta_snd fs.entries idw id p
  simp only [FS.frameExists, FS.findDir, FS.writeMeta]
  cases hl : listFindDir (List.map (writeMetaEntry idw p) fs.entries) id with
  | none =>
      rw [hl] at h
      cases hr : listFindDir fs.entries id with
      | none => rfl
      | some y => rw [hr] at h; simp at h
  | some x =>
      rw [hl] at h
      cases hr : listFindDir fs.entries id with
      | none => rw [hr] at h; simp at h
      | some y =>
          rw [hr] at h
          simp at h
          obtain ⟨m1, f1⟩ := x
          obtain ⟨m2, f2⟩ := y
          simp at h
          rw [h]

theorem frameExists_deleteFrameFile (fs : FS) (id : String) (n : Nat) :
    (fs.deleteFrameFile id n).frameExists id n = false := by
  simp only [FS.deleteFrameFile, FS.frameExists, FS.findDir]
  rw [listFindDir_map_deleteFrame]
  cases hr : listFindDir fs.entries id with
  | none => rfl
  | some x => simp [filter_ne_contains_self]

theorem frameExists_deleteLastFrame (fs : FS) (id : String) (n : Nat) :
    (StorageNext.deleteLastFrame fs id n).frameExists id n = false := by
  unfold StorageNext.deleteLastFrame
  by_cases h : fs.frameExists id n = true
  · rw [if_pos h]
    exact frameExists_deleteFrameFile fs id n
  · have h' : fs.frameExists id n = false := by
      cases hb : fs.frameExists id n
      · rfl
      · exact absurd hb h
    rw [if_neg (by simp [h'])]
    exact h'

/-- Sample records for the concrete witness instances: two projects
with equal updatedAt stamps. -/
def pA : Project := ⟨"a", "Alpha", 0, 5, 2, 12⟩

/-- Second sample record, same updatedAt as pA. -/
def pB : Project := ⟨"b", "Beta", 0, 5, 0, 12⟩

/-- Sample store: two project directories with parsed metadata, frames
1 and 2 present for pA. -/
def fsAB : FS :=
  ⟨true, [Entry.dir ("a") (some (MetaContent.good pA)) [1, 2],
          Entry.dir ("b") (some (MetaContent.good pB)) []]⟩

/-- Sample camera-screen state holding pA with all capture guards
satisfied. -/
def camS : CameraScreen := ⟨some pA, false, true, true, none⟩

/-- Sample store holding one malformed metadata file and one good one. -/
def fsBad : FS :=
  ⟨true, [Entry.dir ("m") (some MetaContent.malformed) [],
          Entry.dir ("a") (some (MetaContent.good pA)) []]⟩

/-- C7: getFramePath is a pure deterministic function of projectId and
frameNumber, returning projects/<projectId>/frames/frame_NNN.jpg where
NNN is the frame number zero-padded to 3 digits, and two calls with
equal arguments return equal results. -/
theorem getFramePath_pure (projectId : String) (frameNumber : Nat) :
    StorageNext.getFramePath projectId frameNumber =
      "projects/" ++ projectId ++ "/frames/frame_" ++ zeroPad3 frameNumber ++ ".jpg" ∧
    (∀ id2 n2, projectId = id2 → frameNumber = n2 →
      StorageNext.getFramePath projectId frameNumber = StorageNext.getFramePath id2 n2) := by
  constructor
  · rfl
  · intro id2 n2 h1 h2
    rw [h1, h2]

/-- C7 witness at a concrete path. -/
theorem getFramePath_pure_witness :
    StorageNext.getFramePath ("p1") 7 = "projects/p1/frames/frame_007.jpg" ∧
    StorageNext.getFramePath ("p1") 7 = StorageNext.getFramePath ("p1") 7 := by
  refine ⟨?_, (getFramePath_pure ("p1") 7).2 ("p1") 7 rfl rfl⟩
  rw [(getFramePath_pure ("p1") 7).1]
  decide

/-- C5: matchCommand lower-cases and trims the transcript and returns
the command of the first COMMAND_MAP row (row order: capture, delete,
play) one of whose phrases the normalised transcript contains, so a
transcript matching several rows resolves to the earliest row; take
photo and snap resolve to capture, and foo bar resolves to no
command. -/
theorem matchCommand_first_match :
    (∀ t c, matchCommand t = some c ↔
      ∃ pre e post, COMMAND_MAP = pre ++ e :: post ∧
        (∀ x ∈ pre, entryAny (jsTrim (jsToLower t)) x = false) ∧
        entryAny (jsTrim (jsToLower t)) e = true ∧ e.command = c) ∧
    (∀ t, matchCommand t = none ↔
      ∀ e ∈ COMMAND_MAP, entryAny (jsTrim (jsToLower t)) e = false) ∧
    matchCommand ("take photo") = some VoiceCommand.capture ∧
    matchCommand ("snap") = some VoiceCommand.capture ∧
    matchCommand ("foo bar") = none := by
  refine ⟨?_, ?_, by decide, by decide, by decide⟩
  · intro t c
    exact matchEntries_eq_some_iff (jsTrim (jsToLower t)) COMMAND_MAP c
  · intro t
    exact matchEntries_eq_none_iff (jsTrim (jsToLower t)) COMMAND_MAP

/-- C5 witness: the first-match characterisation applied to a
transcript whose phrase sits in the second row. -/
theorem matchCommand_first_match_witness :
    matchCommand ("undo please") = some VoiceCommand.delete := by
  have h := matchCommand_first_match
  exact (h.1 ("undo please") VoiceCommand.delete).mpr
    ⟨[⟨["take photo", "capture", "snap"], VoiceCommand.capture⟩],
     ⟨["delete photo", "delete frame", "undo"], VoiceCommand.delete⟩,
     [⟨["play", "preview"], VoiceCommand.play⟩],
     by decide, by decide, by decide, rfl⟩

/-- C2: loadProject returns the absent value whenever the metadata file
is missing or unparsable (so parse failure is observationally identical
to not-found), and returns the parsed record when the file is present
and parsable; the model function is total, so no outcome throws. -/
theorem loadProject_absent_on_failure (fs : FS) (projectId : String) :
    (fs.readMeta projectId = none → StorageNext.loadProject fs projectId = none) ∧
    (fs.readMeta projectId = some MetaContent.malformed →
      StorageNext.loadProject fs projectId = none) ∧
    (∀ p, fs.readMeta projectId = some (MetaContent.good p) →
      StorageNext.loadProject fs projectId = some p) := by
  refine ⟨?_, ?_, ?_⟩
  · intro h
    simp [StorageNext.loadProject, h]
  · intro h
    simp [StorageNext.loadProject, h]
  · intro p h
    simp [StorageNext.loadProject, h]

/-- C2 witness: a missing, a malformed, and a parsable metadata file. -/
theorem loadProject_absent_on_failure_witness :
    StorageNext.loadProject fsBad ("zz") = none ∧
    StorageNext.loadProject fsBad ("m") = none ∧
    StorageNext.loadProject fsBad ("a") = some pA :=
  ⟨(loadProject_absent_on_failure fsBad ("zz")).1 (by decide),
   (loadProject_absent_on_failure fsBad ("m")).2.1 (by decide),
   (loadProject_absent_on_failure fsBad ("a")).2.2 pA (by decide)⟩

/-- C4: executeCommand suppresses a dispatch (invokes no callback) if
and only if the command equals the immediately preceding executed
command and strictly less than DEBOUNCE_MS (1.5 s) elapsed since that
command executed; a command differing from the previous one is never
debounced; a non-suppressed dispatch invokes exactly the one callback
for the command as supplied at dispatch time (the handler refs are
re-read on every dispatch, so this is the current callback) and records
the command and its time; a suppressed dispatch leaves the state
unchanged. -/
theorem executeCommand_debounce (α : Type) (st : DispatchState)
    (callbacks : VoiceCommand → α) (cmd : VoiceCommand) (now : Nat) :
    ((executeCommand st callbacks cmd now).2 = none ↔
      st.lastCommand = some cmd ∧ now - st.lastCommandTime < DEBOUNCE_MS) ∧
    (st.lastCommand ≠ some cmd →
      (executeCommand st callbacks cmd now).2 = some (callbacks cmd)) ∧
    ((executeCommand st callbacks cmd now).2 ≠ none →
      executeCommand st callbacks cmd now =
        (⟨now, some cmd⟩, some (callbacks cmd))) ∧
    ((executeCommand st callbacks cmd now).2 = none →
      (executeCommand st callbacks cmd now).1 = st) := by
  by_cases h : now - st.lastCommandTime < DEBOUNCE_MS ∧ st.lastCommand = some cmd
  · refine ⟨?_, ?_, ?_, ?_⟩
    · simp [executeCommand, h]
    · intro hne
      exact absurd h.2 hne
    · intro hne
      exact absurd (by simp [executeCommand, h]) hne
    · intro _
      simp [executeCommand, h]
  · refine ⟨?_, ?_, ?_, ?_⟩
    · simp [executeCommand, h]
      intro h1
      by_contra hlt
      exact h ⟨Nat.lt_of_not_le hlt, h1⟩
    · intro _
      simp [executeCommand, h]
    · intro _
      simp [executeCommand, h]
    · intro hnone
      simp [executeCommand, h] at hnone
  
/-- C4 witness: a fresh command within the window is dispatched to its
current callback. -/
theorem executeCommand_debounce_witness :
    (executeCommand ⟨100, some VoiceCommand.capture⟩ (fun c => c)
        VoiceCommand.delete 200).2 = some VoiceCommand.delete := by
  have h := executeCommand_debounce VoiceCommand ⟨100, some VoiceCommand.capture⟩
    (fun c => c) VoiceCommand.delete 200
  exact h.2.1 (by decide)

/-- C6: a recognition-session end event or a transient no-speech error
restarts the session exactly when the listening-intent flag is still
set, and once the flag is cleared no sequence of end or error events
ever starts a session or re-sets the flag. -/
theorem restart_iff_intent :
    (∀ st : HookState, (hookStep st HookEvent.endEv).started = st.wantsListening) ∧
    (∀ st : HookState,
      (hookStep st (HookEvent.errorEv SpeechError.noSpeech)).started = st.wantsListening) ∧
    (∀ (st : HookState) (evs : List HookEvent), st.wantsListening = false →
      (∀ ev ∈ evs, ev = HookEvent.endEv ∨ ∃ e, ev = HookEvent.errorEv e) →
      (runEvents st evs).anyStarted = false ∧
        (runEvents st evs).state.wantsListening = false) := by
  refine ⟨?_, ?_, ?_⟩
  · intro st
    by_cases h : st.wantsListening <;> simp [hookStep, onEnd, h]
  · intro st
    by_cases h : st.wantsListening <;> simp [hookStep, onError, h]
  · exact runEvents_no_restart

/-- C6 witness: with the intent flag cleared, an end event and a
no-speech error start nothing. -/
theorem restart_iff_intent_witness :
    (runEvents ⟨false, false, true⟩
        [HookEvent.endEv, HookEvent.errorEv SpeechError.noSpeech]).anyStarted = false := by
  have h := restart_iff_intent.2.2 ⟨false, false, true⟩
    [HookEvent.endEv, HookEvent.errorEv SpeechError.noSpeech] rfl
  refine (h ?_).1
  intro ev hev
  rcases List.mem_cons.mp hev with rfl | hev'
  · exact Or.inl rfl
  · rcases List.mem_cons.mp hev' with rfl | hend
    · exact Or.inr ⟨SpeechError.noSpeech, rfl⟩
    · cases hend

/-- C9: a denied microphone permission request leaves the dispatcher
idle (intent flag false, no session started) and marks the feature
unavailable, and from any unavailable idle state no subsequent event
issues the prompt again, starts a session, or revives the feature
within the session. -/
theorem denied_permission_no_reprompt :
    (∀ st : HookState, st.isAvailable = true → st.wantsListening = false →
      hookStep st (HookEvent.toggleEv false) =
        ⟨{ st with isAvailable := false }, false, true⟩) ∧
    (∀ (st : HookState) (evs : List HookEvent),
      st.isAvailable = false → st.wantsListening = false →
      (runEvents st evs).anyStarted = false ∧ (runEvents st evs).anyPrompted = false ∧
        (runEvents st evs).state.isAvailable = false ∧
        (runEvents st evs).state.wantsListening = false) := by
  refine ⟨?_, ?_⟩
  · intro st ha hw
    simp [hookStep, toggleListening, ha, hw]
  · intro st evs ha hw
    exact runEvents_unavailable st evs ha hw

/-- C9 witness: the denial step at a concrete state, then a toggle and
an end event that prompt nothing. -/
theorem denied_permission_no_reprompt_witness :
    hookStep ⟨false, false, true⟩ (HookEvent.toggleEv false) =
      ⟨⟨false, false, false⟩, false, true⟩ ∧
    (runEvents ⟨false, false, false⟩
        [HookEvent.toggleEv true, HookEvent.endEv]).anyPrompted = false := by
  constructor
  · have h := denied_permission_no_reprompt.1 ⟨false, false, true⟩ rfl rfl
    simpa using h
  · exact (denied_permission_no_reprompt.2 ⟨false, false, false⟩
      [HookEvent.toggleEv true, HookEvent.endEv] rfl rfl).2.1

/-- C1: with the capture guards satisfied, a successful capture at
frameCount below 200 sets the project record to frameCount+1 (and
updatedAt to now); a capture at frameCount 200 is rejected leaving the
file system and the screen state exactly unchanged; a delete at
frameCount k > 0 sets the record to k-1 and frame k no longer exists;
a delete at frameCount 0 leaves file system and state exactly
unchanged; and both operations keep frameCount at most 200. -/
theorem capture_delete_frameCount (fs : FS) (s : CameraScreen) (p : Project)
    (photoUri : String) (photo : Option String) (now : Nat) :
    (s.project = some p → s.camRef = true → s.capturing = false → s.cameraReady = true →
      p.frameCount < 200 →
      (handleCapture fs s (some photoUri) now).2.project =
        some { p with frameCount := p.frameCount + 1, updatedAt := now }) ∧
    (s.project = some p → s.camRef = true → s.capturing = false → s.cameraReady = true →
      p.frameCount = 200 →
      handleCapture fs s (some photoUri) now = (fs, s)) ∧
    (s.project = some p → 0 < p.frameCount →
      (handleDeleteLast fs s now).2.project =
        some { p with frameCount := p.frameCount - 1, updatedAt := now } ∧
      (handleDeleteLast fs s now).1.frameExists p.id p.frameCount = false) ∧
    (s.project = some p → p.frameCount = 0 → handleDeleteLast fs s now = (fs, s)) ∧
    (∀ q, s.project = some p → p.frameCount ≤ 200 →
      (handleCapture fs s photo now).2.project = some q → q.frameCount ≤ 200) ∧
    (∀ q, s.project = some p → p.frameCount ≤ 200 →
      (handleDeleteLast fs s now).2.project = some q → q.frameCount ≤ 200) := by
  refine ⟨?_, ?_, ?_, ?_, ?_, ?_⟩
  · intro hp hcam hcap hready hlt
    have hng : ¬ (p.frameCount + 1 > 200) := by omega
    simp [handleCapture, hp, hcam, hcap, hready, hng]
  · intro hp hcam hcap hready h200
    have hg : p.frameCount + 1 > 200 := by omega
    obtain ⟨pr, cap, rd, cr, lu⟩ := s
    simp only at hp hcam hcap hready
    subst hp
    subst hcam
    subst hcap
    subst hready
    simp [handleCapture, hg]
  · intro hp hpos
    have hne : ¬ (p.frameCount = 0) := by omega
    constructor
    · simp [handleDeleteLast, hp, hne]
    · have hgoal : (handleDeleteLast fs s now).1 =
          (StorageNext.deleteLastFrame fs p.id p.frameCount).writeMeta p.id
            { p with frameCount := p.frameCount - 1, updatedAt := now } := by
        simp [handleDeleteLast, hp, hne, StorageNext.saveProjectMetadata]
      rw [hgoal, frameExists_writeMeta]
      exact frameExists_deleteLastFrame fs p.id p.frameCount
  · intro hp h0
    simp [handleDeleteLast, hp, h0]
  · intro q hp hle hq
    obtain ⟨pr, cap, rd, cr, lu⟩ := s
    simp only at hp
    subst hp
    cases cr with
    | false =>
        have hres :
            (handleCapture fs ⟨some p, cap, rd, false, lu⟩ photo now).2.project = some p := by
          simp [handleCapture]
        rw [hres] at hq
        have h2 := Option.some.inj hq
        subst h2
        exact hle
    | true =>
        cases cap with
        | true =>
            have hres :
                (handleCapture fs ⟨some p, true, rd, true, lu⟩ photo now).2.project = some p := by
              simp [handleCapture]
            rw [hres] at hq
            have h2 := Option.some.inj hq
            subst h2
            exact hle
        | false =>
            cases rd with
            | false =>
                have hres :
                    (handleCapture fs ⟨some p, false, false, true, lu⟩ photo now).2.project =
                      some p := by
                  simp [handleCapture]
                rw [hres] at hq
                have h2 := Option.some.inj hq
                subst h2
                exact hle
            | true =>
                cases photo with
                | none =>
                    have hres :
                        (handleCapture fs ⟨some p, false, true, true, lu⟩ none now).2.project =
                          some p := by
                      simp [handleCapture]
                    rw [hres] at hq
                    have h2 := Option.some.inj hq
                    subst h2
                    exact hle
                | some u =>
                    by_cases hover : p.frameCount + 1 > 200
                    · have hres :
                          (handleCapture fs ⟨some p, false, true, true, lu⟩
                              (some u) now).2.project = some p := by
                        simp [handleCapture, hover]
                      rw [hres] at hq
                      have h2 := Option.some.inj hq
                      subst h2
                      exact hle
                    · have hres :
                          (handleCapture fs ⟨some p, false, true, true, lu⟩
                              (some u) now).2.project =
                            some { p with frameCount := p.frameCount + 1, updatedAt := now } := by
                        simp [handleCapture, hover]
                      rw [hres] at hq
                      have h2 := Option.some.inj hq
                      subst h2
                      show p.frameCount + 1 ≤ 200
                      omega
  · intro q hp hle hq
    by_cases h0 : p.frameCount = 0
    · have hres : (handleDeleteLast fs s now).2.project = some p := by
        simp [handleDeleteLast, hp, h0]
      rw [hres] at hq
      have h2 := Option.some.inj hq
      subst h2
      exact hle
    · have hres : (handleDeleteLast fs s now).2.project =
          some { p with frameCount := p.frameCount - 1, updatedAt := now } := by
        simp [handleDeleteLast, hp, h0]
      rw [hres] at hq
      have h2 := Option.some.inj hq
      subst h2
      show p.frameCount - 1 ≤ 200
      omega

/-- C1 witness: capture and delete at the sample two-frame project. -/
theorem capture_delete_frameCount_witness :
    (handleCapture fsAB camS (some ("ph")) 9).2.project =
      some { pA with frameCount := pA.frameCount + 1, updatedAt := 9 } ∧
    (handleDeleteLast fsAB camS 9).1.frameExists pA.id pA.frameCount = false := by
  have h := capture_delete_frameCount fsAB camS pA ("ph") (some ("ph")) 9
  exact ⟨h.1 rfl rfl rfl rfl (by decide), (h.2.2.1 rfl (by decide)).2⟩

/-- C8: createProject called with a fresh identifier (the v4Style
helper module is not among the sources; following the spec it is
modelled as supplying an id that collides with no existing project id)
succeeds (returns a present result, throwing nothing) with a record
bearing that id, frameCount 0, fps 12, and createdAt = updatedAt =
now; afterwards the projects root and the project directory exist and
the metadata file holds exactly the returned record, whose id still
collides with no pre-existing entry. -/
theorem createProject_fresh (fs : FS) (name id : String) (now : Nat)
    (hfresh : ∀ e ∈ fs.entries, Entry.name e ≠ id) :
    (StorageNext.createProject fs name id now).isSome = true ∧
    Option.map Prod.snd (StorageNext.createProject fs name id now) =
      some { id := id, name := name, createdAt := now, updatedAt := now,
             frameCount := 0, fps := 12 } ∧
    Option.map (fun r => r.1.rootExists) (StorageNext.createProject fs name id now) =
      some true ∧
    Option.map (fun r => r.1.dirExists id) (StorageNext.createProject fs name id now) =
      some true ∧
    Option.map (fun r => r.1.readMeta id) (StorageNext.createProject fs name id now) =
      some (some (MetaContent.good
        { id := id, name := name, createdAt := now, updatedAt := now,
          frameCount := 0, fps := 12 })) ∧
    (∀ e ∈ fs.entries, Entry.name e ≠ id) := by
  have hfind : listFindDir fs.entries id = none := listFindDir_eq_none fs.entries id hfresh
  have h1 : (StorageNext.ensureProjectsDir fs).entries = fs.entries := ensure_entries fs
  have hroot : (StorageNext.ensureProjectsDir fs).rootExists = true := by
    by_cases hr : fs.rootExists <;> simp [StorageNext.ensureProjectsDir, hr]
  have hdir1 : (StorageNext.ensureProjectsDir fs).dirExists id = false := by
    simp [FS.dirExists, FS.findDir, h1, hfind]
  have hcp : StorageNext.createProject fs name id now =
      some ((((StorageNext.ensureProjectsDir fs).appendDir id).writeMeta id
        ⟨id, name, now, now, 0, 12⟩), ⟨id, name, now, now, 0, 12⟩) := by
    rw [StorageNext.createProject]
    rw [if_neg (by simp [hdir1])]
  have h3 : listFindDir (fs.entries ++ [Entry.dir id none []]) id = some (none, []) := by
    rw [listFindDir_append_of_none _ _ _ hfind]
    simp [listFindDir]
  have happ : ((StorageNext.ensureProjectsDir fs).appendDir id).entries =
      fs.entries ++ [Entry.dir id none []] := by
    simp [FS.appendDir, h1]
  refine ⟨?_, ?_, ?_, ?_, ?_, hfresh⟩
  · rw [hcp]
    rfl
  · rw [hcp]
    rfl
  · rw [hcp]
    simp [FS.writeMeta, FS.appendDir, hroot]
  · rw [hcp]
    simp only [Option.map_some']
    simp only [FS.dirExists, FS.findDir, FS.writeMeta, happ]
    rw [listFindDir_map_writeMeta, h3]
    rfl
  · rw [hcp]
    simp only [Option.map_some']
    simp only [FS.readMeta, FS.findDir, FS.writeMeta, happ]
    rw [listFindDir_map_writeMeta, h3]
    rfl

/-- C8 witness: creating a project with a fresh id over the sample
store. -/
theorem createProject_fresh_witness :
    Option.map Prod.snd (StorageNext.createProject fsAB ("New") ("c") 7) =
      some { id := "c", name := "New", createdAt := 7, updatedAt := 7,
             frameCount := 0, fps := 12 } ∧
    Option.map (fun r => r.1.readMeta ("c")) (StorageNext.createProject fsAB ("New") ("c") 7) =
      some (some (MetaContent.good
        { id := "c", name := "New", createdAt := 7, updatedAt := 7,
          frameCount := 0, fps := 12 })) := by
  have h := createProject_fresh fsAB ("New") ("c") 7 (by decide)
  exact ⟨h.2.1, h.2.2.2.2.1⟩

/-- C3 counterexample: over the sample store fsAB both records load
and share updatedAt = 5, so listProjects returns them both but the
returned sequence is not strictly descending in updatedAt. -/
theorem listProjects_not_strict_counterexample :
    (StorageNext.listProjects fsAB).2 = [pA, pB] ∧
    pA.updatedAt = pB.updatedAt ∧
    ¬ strictUpdatedDesc (StorageNext.listProjects fsAB).2 := by
  refine ⟨by decide, by decide, ?_⟩
  rw [show (StorageNext.listProjects fsAB).2 = [pA, pB] from by decide]
  intro hstrict
  simp only [strictUpdatedDesc] at hstrict
  have hlt := (List.pairwise_cons.mp hstrict).1 pB (List.mem_cons_self _ _)
  simp [pA, pB] at hlt

/-- C3 amended: on a duplicate-free listing, listProjects returns
exactly the records of the directory entries whose metadata parses
(failures and stray files are skipped), sorted by weakly descending
updatedAt (the comparator admits ties), and a listed project whose
updatedAt strictly exceeds every other listed record's is returned
first - so a freshly created or freshly modified project bearing a
strictly newest stamp heads the next listing. -/
theorem listProjects_sorted_desc (fs : FS) (hnod : NodupNames fs) :
    (∀ p, p ∈ (StorageNext.listProjects fs).2 ↔
      ∃ nm frs, Entry.dir nm (some (MetaContent.good p)) frs ∈ fs.entries) ∧
    updatedDesc (StorageNext.listProjects fs).2 ∧
    (∀ p, p ∈ (StorageNext.listProjects fs).2 →
      (∀ q, q ∈ (StorageNext.listProjects fs).2 → q ≠ p →
        q.updatedAt < p.updatedAt) →
      (StorageNext.listProjects fs).2.head? = some p) := by
  have h1 : (StorageNext.ensureProjectsDir fs).entries = fs.entries := ensure_entries fs
  have hlist : (StorageNext.listProjects fs).2 =
      sortByUpdatedDesc (StorageNext.collectProjects (StorageNext.ensureProjectsDir fs)
        (StorageNext.ensureProjectsDir fs).entries) := rfl
  refine ⟨?_, ?_, ?_⟩
  · intro p
    rw [hlist, mem_sortByUpdatedDesc, mem_collectNext]
    constructor
    · rintro ⟨e, hmem, hd, hload⟩
      rw [h1] at hmem
      cases e with
      | dir nm m frs =>
          rw [loadProject_congr_entries (StorageNext.ensureProjectsDir fs) fs h1] at hload
          rw [loadProject_eq_some_iff] at hload
          simp only [FS.readMeta, FS.findDir] at hload
          cases hf : listFindDir fs.entries (Entry.name (Entry.dir nm m frs)) with
          | none => rw [hf] at hload; cases hload
          | some x =>
              obtain ⟨m2, frs2⟩ := x
              rw [hf] at hload
              simp at hload
              subst hload
              exact ⟨Entry.name (Entry.dir nm m frs), frs2, findDir_mem _ _ _ _ hf⟩
      | file nm => cases hd
    · rintro ⟨nm, frs, hmem⟩
      have hfd : listFindDir fs.entries nm = some (some (MetaContent.good p), frs) :=
        mem_findDir_of_nodup fs.entries nm _ frs hnod hmem
      refine ⟨Entry.dir nm (some (MetaContent.good p)) frs, ?_, rfl, ?_⟩
      · rw [h1]
        exact hmem
      · rw [loadProject_congr_entries (StorageNext.ensureProjectsDir fs) fs h1]
        rw [loadProject_eq_some_iff]
        simp only [FS.readMeta, FS.findDir]
        rw [show Entry.name (Entry.dir nm (some (MetaContent.good p)) frs) = nm from rfl, hfd]
  · rw [hlist]
    exact updatedDesc_sort _
  · intro p hp hmax
    exact head_eq_of_strict_max _ p (by rw [hlist]; exact updatedDesc_sort _) hp hmax

/-- C3 witness: the amended statement applied to the sample store. -/
theorem listProjects_sorted_desc_witness :
    updatedDesc (StorageNext.listProjects fsAB).2 ∧
    pA ∈ (StorageNext.listProjects fsAB).2 := by
  have h := listProjects_sorted_desc fsAB
    (by decide : (List.map Entry.name fsAB.entries).Nodup)
  exact ⟨h.2.1, (h.1 pA).mpr ⟨"a", [1, 2], by decide⟩⟩

theorem listFindDir_eq_none_of_no_dir (l : List Entry) (id : String)
    (h : ∀ m frs, Entry.dir id m frs ∉ l) : listFindDir l id = none := by
  induction l with
  | nil => rfl
  | cons e rest ih =>
      cases e with
      | dir n m frs =>
          by_cases hn : n = id
          · subst hn
            exact absurd (List.mem_cons_self _ _) (h m frs)
          · simp [listFindDir, hn]
            exact ih (fun m2 f2 hmem => h m2 f2 (List.mem_cons_of_mem _ hmem))
      | file n =>
          simp [listFindDir]
          exact ih (fun m2 f2 hmem => h m2 f2 (List.mem_cons_of_mem _ hmem))

theorem no_dir_of_file_mem (l : List Entry) (nm : String)
    (hnod : (l.map Entry.name).Nodup) (hmem : Entry.file nm ∈ l) :
    ∀ m frs, Entry.dir nm m frs ∉ l := by
  intro m frs hdir
  have heq : Entry.file nm = Entry.dir nm m frs :=
    List.inj_on_of_nodup_map hnod hmem hdir rfl
  cases heq

theorem loadProject_eq (fs : FS) (id : String) :
    StorageNext.loadProject fs id = StorageLegacy.loadProject fs id := by
  cases hm : fs.readMeta id with
  | none => simp [StorageNext.loadProject, StorageLegacy.loadProject, hm]
  | some mc => cases mc <;> simp [StorageNext.loadProject, StorageLegacy.loadProject, hm]

theorem collect_eq (fs : FS) (l : List Entry)
    (hfiles : ∀ nm, Entry.file nm ∈ l → listFindDir fs.entries nm = none) :
    StorageNext.collectProjects fs l = StorageLegacy.collectProjects fs l := by
  induction l with
  | nil => rfl
  | cons e rest ih =>
      have hrest := fun nm hh => hfiles nm (List.mem_cons_of_mem _ hh)
      cases e with
      | dir n m frs =>
          rw [StorageNext.collectProjects, StorageLegacy.collectProjects]
          rw [show Entry.name (Entry.dir n m frs) = n from rfl]
          rw [← loadProject_eq fs n]
          cases StorageNext.loadProject fs n with
          | none => exact ih hrest
          | some q => rw [ih hrest]
      | file n =>
          rw [StorageNext.collectProjects, StorageLegacy.collectProjects]
          rw [show Entry.name (Entry.file n) = n from rfl]
          have hload : StorageLegacy.loadProject fs n = none := by
            simp [StorageLegacy.loadProject, FS.readMeta, FS.findDir,
              hfiles n (List.mem_cons_self _ _)]
          rw [hload]
          exact ih hrest

theorem listProjects_eq (fs : FS) (hnod : NodupNames fs) :
    StorageNext.listProjects fs = StorageLegacy.listProjects fs := by
  have h1 : (StorageNext.ensureProjectsDir fs).entries = fs.entries := ensure_entries fs
  rw [StorageNext.listProjects, StorageLegacy.listProjects]
  rw [show StorageLegacy.ensureProjectsDir fs = StorageNext.ensureProjectsDir fs from rfl]
  rw [collect_eq (StorageNext.ensureProjectsDir fs) (StorageNext.ensureProjectsDir fs).entries ?_]
  intro nm hmem
  rw [h1] at hmem ⊢
  exact listFindDir_eq_none_of_no_dir fs.entries nm (no_dir_of_file_mem fs.entries nm hnod hmem)

theorem not_mem_of_contains_false (frs : List Nat) (n : Nat)
    (h : frs.contains n = false) : n ∉ frs := by
  induction frs with
  | nil => simp
  | cons a rest ih =>
      simp [List.contains_cons] at h
      intro hmem
      rcases List.mem_cons.mp hmem with rfl | hmem2
      · exact h.1 rfl
      · exact absurd hmem2 (ih (by simp [h.2]))

theorem map_deleteFrameEntry_of_not_contains (l : List Entry) (id : String) (n : Nat)
    (hnod : (l.map Entry.name).Nodup)
    (h : ∀ m frs, listFindDir l id = some (m, frs) → frs.contains n = false) :
    l.map (deleteFrameEntry id n) = l := by
  induction l with
  | nil => rfl
  | cons e rest ih =>
      have hcons := List.nodup_cons.mp (by simpa only [List.map_cons] using hnod)
      cases e with
      | dir nm m frs =>
          by_cases hn : nm = id
          · subst hn
            have hc : frs.contains n = false := h m frs (by simp [listFindDir])
            have hrest : rest.map (deleteFrameEntry nm n) = rest := by
              apply map_deleteFrameEntry_of_none
              apply listFindDir_eq_none_of_no_dir
              intro m2 f2 hmem
              exact hcons.1 (List.mem_map.mpr ⟨Entry.dir nm m2 f2, hmem, rfl⟩)
            simp [deleteFrameEntry, filter_ne_of_not_contains frs n hc, hrest]
            intro a ha han
            subst han
            exact absurd ha (not_mem_of_contains_false frs a hc)
          · have hstep : ∀ m2 f2, listFindDir rest id = some (m2, f2) →
                f2.contains n = false := by
              intro m2 f2 hf
              exact h m2 f2 (by simpa [listFindDir, hn] using hf)
            simp [deleteFrameEntry, hn]
            exact ih hcons.2 hstep
      | file nm =>
          have hstep : ∀ m2 f2, listFindDir rest id = some (m2, f2) →
              f2.contains n = false := by
            intro m2 f2 hf
            exact h m2 f2 (by simpa [listFindDir] using hf)
          simp [deleteFrameEntry]
          exact ih hcons.2 hstep

theorem deleteLastFrame_eq (fs : FS) (id : String) (n : Nat) (hnod : NodupNames fs) :
    StorageNext.deleteLastFrame fs id n = StorageLegacy.deleteLastFrame fs id n := by
  rw [StorageNext.deleteLastFrame, StorageLegacy.deleteLastFrame]
  by_cases h : fs.frameExists id n = true
  · rw [if_pos h]
  · have h' : fs.frameExists id n = false := by
      cases hb : fs.frameExists id n
      · rfl
      · exact absurd hb h
    rw [if_neg (by simp [h'])]
    have hmap : fs.entries.map (deleteFrameEntry id n) = fs.entries := by
      apply map_deleteFrameEntry_of_not_contains fs.entries id n hnod
      intro m frs hf
      simp only [FS.frameExists, FS.findDir] at h'
      rw [hf] at h'
      exact h'
    simp [FS.deleteFrameFile, hmap]

/-- C10 counterexample: on an id supply that collides with an existing
project directory the two modules diverge observably: the store fsAB
already holds project a with frameCount 2, yet createProject on id a
makes the next module throw (absent result, nothing written) while the
legacy module succeeds and overwrites the metadata of a, resetting its
persisted frameCount to 0, so the results and persisted states
differ. -/
theorem storage_impls_divergence_counterexample :
    fsAB.readMeta ("a") = some (MetaContent.good pA) ∧
    pA.frameCount = 2 ∧
    StorageNext.createProject fsAB ("N") ("a") 7 = none ∧
    Option.map (fun r => r.1.readMeta ("a")) (StorageLegacy.createProject fsAB ("N") ("a") 7) =
      some (some (MetaContent.good
        { id := "a", name := "N", createdAt := 7, updatedAt := 7,
          frameCount := 0, fps := 12 })) ∧
    StorageNext.createProject fsAB ("N") ("a") 7 ≠
      StorageLegacy.createProject fsAB ("N") ("a") 7 := by
  refine ⟨by decide, by decide, by decide, by decide, by decide⟩

/-- C10 amended: the expo-file-system/next storage module and the
legacy expo-file-system module are observationally equivalent at the
public interface whenever every id handed to createProject is fresh,
as the randomized v4Style scheme is specified to guarantee: over any
duplicate-free store state, with the same clock and a non-colliding id
supply, each public operation returns the same value and leaves the
same persisted state in both implementations; since each operation
maps equal states to equal states and results, the equality extends to
every sequence of calls over the same initial state. -/
theorem storage_impls_equivalent (fs : FS) (hnod : NodupNames fs)
    (projectId name id sourceUri : String) (now : Nat)
    (metadata : Project) (frameNumber frameCount : Nat)
    (hfresh : ∀ e ∈ fs.entries, Entry.name e ≠ id) :
    StorageNext.createProject fs name id now = StorageLegacy.createProject fs name id now ∧
    StorageNext.loadProject fs projectId = StorageLegacy.loadProject fs projectId ∧
    StorageNext.saveProjectMetadata fs metadata =
      StorageLegacy.saveProjectMetadata fs metadata ∧
    StorageNext.listProjects fs = StorageLegacy.listProjects fs ∧
    StorageNext.deleteProject fs projectId = StorageLegacy.deleteProject fs projectId ∧
    StorageNext.addFrame fs projectId sourceUri frameNumber =
      StorageLegacy.addFrame fs projectId sourceUri frameNumber ∧
    StorageNext.deleteLastFrame fs projectId frameNumber =
      StorageLegacy.deleteLastFrame fs projectId frameNumber ∧
    StorageNext.getFramePath projectId frameNumber =
      StorageLegacy.getFramePath projectId frameNumber ∧
    StorageNext.getFrameUri fs projectId frameNumber =
      StorageLegacy.getFrameUri fs projectId frameNumber ∧
    StorageNext.getAllFrameUris projectId frameCount =
      StorageLegacy.getAllFrameUris projectId frameCount := by
  have hfind : listFindDir fs.entries id = none := listFindDir_eq_none fs.entries id hfresh
  have h1 : (StorageNext.ensureProjectsDir fs).entries = fs.entries := ensure_entries fs
  have hdir1 : (StorageNext.ensureProjectsDir fs).dirExists id = false := by
    simp [FS.dirExists, FS.findDir, h1, hfind]
  have hcreate : StorageNext.createProject fs name id now =
      StorageLegacy.createProject fs name id now := by
    rw [StorageNext.createProject, StorageLegacy.createProject]
    rw [show StorageLegacy.ensureProjectsDir fs = StorageNext.ensureProjectsDir fs from rfl]
    simp [hdir1]
  refine ⟨hcreate, loadProject_eq fs projectId, rfl, listProjects_eq fs hnod, ?_, rfl,
    deleteLastFrame_eq fs projectId frameNumber hnod, rfl, rfl, rfl⟩
  rw [StorageNext.deleteProject, StorageLegacy.deleteProject]
  by_cases h : fs.dirExists projectId = true
  · rw [if_pos h]
  · rw [if_neg (by simp [h])]
    have hnone : listFindDir fs.entries projectId = none := by
      cases hf : listFindDir fs.entries projectId with
      | none => rfl
      | some x => exact absurd (by simp [FS.dirExists, FS.findDir, hf]) h
    simp [FS.deleteDir, filter_keepEntry_of_none fs.entries projectId hnone]

/-- C10 witness: equality of both implementations on the sample store
with a fresh id supply. -/
theorem storage_impls_equivalent_witness :
    StorageNext.createProject fsAB ("N") ("c") 7 = StorageLegacy.createProject fsAB ("N") ("c") 7 ∧
    StorageNext.listProjects fsAB = StorageLegacy.listProjects fsAB ∧
    StorageNext.loadProject fsAB ("a") = StorageLegacy.loadProject fsAB ("a") := by
  have h := storage_impls_equivalent fsAB
    (by decide : (List.map Entry.name fsAB.entries).Nodup)
    ("a") ("N") ("c") ("src") 7 pA 1 2
    (by decide : ∀ e ∈ fsAB.entries, Entry.name e ≠ "c")
  exact ⟨h.1, h.2.2.2.1, h.2.1⟩
